import Mathlib

/-!
Shallow embedding of the placement core of `blender_terrain_gen`
(`src/utils/placement.py` and `src/utils/collision.py`), with proofs of the
specified properties.  Python floats are modelled as exact real numbers,
`mathutils.Vector` as a record of three reals, Python `int()` as truncation
toward zero, and the global random generator as an explicit stream of draws.
-/

open Classical

namespace TerrainGen

/-- Model of `mathutils.Vector`: three real coordinates. -/
structure Vec3 where
  x : ℝ
  y : ℝ
  z : ℝ

instance : Inhabited Vec3 := ⟨⟨0, 0, 0⟩⟩

/-- Componentwise subtraction, as `mathutils` vector subtraction. -/
instance : Sub Vec3 := ⟨fun a b => ⟨a.x - b.x, a.y - b.y, a.z - b.z⟩⟩

/-- Dot product, as `Vector.dot`. -/
def Vec3.dot (a b : Vec3) : ℝ := a.x * b.x + a.y * b.y + a.z * b.z

/-- Euclidean norm, as `Vector.length`. -/
noncomputable def Vec3.length (v : Vec3) : ℝ := Real.sqrt (v.x ^ 2 + v.y ^ 2 + v.z ^ 2)

/-- Componentwise division by a scalar, as `mathutils` `Vector / scalar`. -/
noncomputable def Vec3.sdiv (v : Vec3) (c : ℝ) : Vec3 := ⟨v.x / c, v.y / c, v.z / c⟩

theorem Vec3.sub_x (a b : Vec3) : (a - b).x = a.x - b.x := rfl

theorem Vec3.sub_y (a b : Vec3) : (a - b).y = a.y - b.y := rfl

theorem Vec3.sub_z (a b : Vec3) : (a - b).z = a.z - b.z := rfl

theorem Vec3.length_nonneg (v : Vec3) : 0 ≤ v.length := Real.sqrt_nonneg _

theorem Vec3.length_comm (a b : Vec3) : (a - b).length = (b - a).length := by
  unfold Vec3.length
  rw [Vec3.sub_x, Vec3.sub_y, Vec3.sub_z, Vec3.sub_x, Vec3.sub_y, Vec3.sub_z]
  ring_nf

/-- The norm of a difference dominates the x-coordinate gap. -/
theorem Vec3.abs_sub_x_le_length (a b : Vec3) : |a.x - b.x| ≤ (a - b).length := by
  unfold Vec3.length
  rw [Vec3.sub_x, Vec3.sub_y, Vec3.sub_z]
  rw [show |a.x - b.x| = Real.sqrt ((a.x - b.x) ^ 2) by rw [Real.sqrt_sq_eq_abs]]
  apply Real.sqrt_le_sqrt
  nlinarith [sq_nonneg (a.y - b.y), sq_nonneg (a.z - b.z)]

/-- The norm of a difference dominates the y-coordinate gap. -/
theorem Vec3.abs_sub_y_le_length (a b : Vec3) : |a.y - b.y| ≤ (a - b).length := by
  unfold Vec3.length
  rw [Vec3.sub_x, Vec3.sub_y, Vec3.sub_z]
  rw [show |a.y - b.y| = Real.sqrt ((a.y - b.y) ^ 2) by rw [Real.sqrt_sq_eq_abs]]
  apply Real.sqrt_le_sqrt
  nlinarith [sq_nonneg (a.x - b.x), sq_nonneg (a.z - b.z)]

/-- For two points with equal z, componentwise gaps below `c` bound the norm by `c * sqrt 2`. -/
theorem Vec3.length_lt_of_abs_lt {a b : Vec3} {c : ℝ} (hc : 0 < c)
    (hx : |a.x - b.x| < c) (hy : |a.y - b.y| < c) (hz : a.z = b.z) :
    (a - b).length < c * Real.sqrt 2 := by
  unfold Vec3.length
  rw [Vec3.sub_x, Vec3.sub_y, Vec3.sub_z]
  have hx2 : (a.x - b.x) ^ 2 < c ^ 2 := by
    rw [← sq_abs]
    exact pow_lt_pow_left₀ hx (abs_nonneg _) (by norm_num)
  have hy2 : (a.y - b.y) ^ 2 < c ^ 2 := by
    rw [← sq_abs]
    exact pow_lt_pow_left₀ hy (abs_nonneg _) (by norm_num)
  have hz0 : (a.z - b.z) ^ 2 = 0 := by rw [hz]; ring
  have hlt : (a.x - b.x) ^ 2 + (a.y - b.y) ^ 2 + (a.z - b.z) ^ 2 < 2 * c ^ 2 := by
    nlinarith
  calc Real.sqrt ((a.x - b.x) ^ 2 + (a.y - b.y) ^ 2 + (a.z - b.z) ^ 2)
      < Real.sqrt (2 * c ^ 2) := by
        apply Real.sqrt_lt_sqrt (by positivity) hlt
    _ = c * Real.sqrt 2 := by
        rw [Real.sqrt_mul (by norm_num), Real.sqrt_sq hc.le]; ring

/-! ## collision.py -/

/-- Loop of `check_collision_sphere`: true iff some entry `(pos, r)` of the list
has `(position - pos).length < radius + r`. -/
noncomputable def check_collision_sphere (position : Vec3) (radius : ℝ) :
    List (Vec3 × ℝ) → Prop
  | [] => False
  | e :: rest =>
      (position - e.1).length < radius + e.2 ∨ check_collision_sphere position radius rest

/-- Loop of `check_collision_bbox`: AABB overlap test against each entry
`(pos, size)`, with half extents `size / 2` on each axis. -/
noncomputable def check_collision_bbox (position : Vec3) (bbox_size : Vec3) :
    List (Vec3 × Vec3) → Prop
  | [] => False
  | e :: rest =>
      (|position.x - e.1.x| < (bbox_size.sdiv 2).x + (e.2.sdiv 2).x ∧
       |position.y - e.1.y| < (bbox_size.sdiv 2).y + (e.2.sdiv 2).y ∧
       |position.z - e.1.z| < (bbox_size.sdiv 2).z + (e.2.sdiv 2).z) ∨
      check_collision_bbox position bbox_size rest

/-- Model of a Blender object: its `type` string and its `bound_box`,
eight corner vertices. -/
structure BlenderObject where
  objType : String
  bound_box : Fin 8 → Vec3

/-- Minimum of the eight values, as `min(v[k] for v in bbox)`. -/
noncomputable def min8 (f : Fin 8 → ℝ) : ℝ :=
  min (f 0) (min (f 1) (min (f 2) (min (f 3) (min (f 4) (min (f 5) (min (f 6) (f 7)))))))

/-- Maximum of the eight values, as `max(v[k] for v in bbox)`. -/
noncomputable def max8 (f : Fin 8 → ℝ) : ℝ :=
  max (f 0) (max (f 1) (max (f 2) (max (f 3) (max (f 4) (max (f 5) (max (f 6) (f 7)))))))

/-- `get_object_bounds`: bounding-box extent for meshes, `(1,1,1)` otherwise. -/
noncomputable def get_object_bounds (obj : BlenderObject) : Vec3 :=
  if obj.objType = "MESH" then
    let max_co : Vec3 := ⟨max8 (fun k => (obj.bound_box k).x),
                          max8 (fun k => (obj.bound_box k).y),
                          max8 (fun k => (obj.bound_box k).z)⟩
    let min_co : Vec3 := ⟨min8 (fun k => (obj.bound_box k).x),
                          min8 (fun k => (obj.bound_box k).y),
                          min8 (fun k => (obj.bound_box k).z)⟩
    max_co - min_co
  else ⟨1, 1, 1⟩

/-- `get_object_radius`: half the largest extent of the bounds. -/
noncomputable def get_object_radius (obj : BlenderObject) : ℝ :=
  let bounds := get_object_bounds obj
  max bounds.x (max bounds.y bounds.z) / 2

/-- `CollisionManager`: tracked `(position, radius)` entries. -/
structure CollisionManager where
  objects : List (Vec3 × ℝ)

/-- `CollisionManager.__init__`. -/
def CollisionManager.init : CollisionManager := ⟨[]⟩

/-- `CollisionManager.add_object`. -/
def CollisionManager.add_object (m : CollisionManager) (position : Vec3) (radius : ℝ) :
    CollisionManager := ⟨m.objects ++ [(position, radius)]⟩

/-- `CollisionManager.check_collision`. -/
noncomputable def CollisionManager.check_collision (m : CollisionManager)
    (position : Vec3) (radius : ℝ) : Prop :=
  check_collision_sphere position radius m.objects

/-- `CollisionManager.clear`. -/
def CollisionManager.clear (_ : CollisionManager) : CollisionManager := ⟨[]⟩

/-- `CollisionManager.get_count`. -/
def CollisionManager.get_count (m : CollisionManager) : ℕ := m.objects.length

/-! ## placement.py : slope filter -/

/-- `math.degrees`. -/
noncomputable def degrees (x : ℝ) : ℝ := x * 180 / Real.pi

/-- `calculate_slope_angle`: angle between the normal and the up axis, in
degrees, with the dot product clamped into the domain of `acos`. -/
noncomputable def calculate_slope_angle (normal : Vec3) : ℝ :=
  degrees (Real.arccos (max (-1) (min 1 (normal.dot ⟨0, 0, 1⟩))))

/-- `is_valid_slope`: the slope angle is at most the allowed maximum. -/
noncomputable def is_valid_slope (normal : Vec3) (max_slope_degrees : ℝ) : Prop :=
  calculate_slope_angle normal ≤ max_slope_degrees

/-! ## placement.py : Poisson disk sampling

The Python code draws from the process-wide generator `random`; we model the
generator as an explicit stream of draws.  `random.random()` yields a value in
`[0, 1)`, and `random.uniform(a, b)` is `a + (b - a) * random.random()`;
`random.randint(0, n - 1)` yields an arbitrary integer in range, modelled by
reducing an arbitrary natural draw modulo `n`.  Real coordinates carry exact
real arithmetic. -/

/-- A stream of random draws: `real n` models the n-th `random.random()` call
(a value in `[0, 1)`), `nat n` the n-th integer draw. -/
structure RandStream where
  real : ℕ → ℝ
  nat : ℕ → ℕ
  real_range : ∀ n, 0 ≤ real n ∧ real n < 1

/-- `random.uniform(a, b)` given the underlying `random.random()` value `v`. -/
noncomputable def uniform (a b v : ℝ) : ℝ := a + (b - a) * v

/-- Python `int()` applied to a real: truncation toward zero. -/
noncomputable def pyInt (x : ℝ) : ℤ := if 0 ≤ x then ⌊x⌋ else ⌈x⌉

/-- `cell_size = min_distance / (2 ** 0.5)`. -/
noncomputable def cell_size (min_distance : ℝ) : ℝ := min_distance / Real.sqrt 2

/-- `grid_width = int(width / cell_size) + 1`. -/
noncomputable def grid_width (width min_distance : ℝ) : ℤ :=
  pyInt (width / cell_size min_distance) + 1

/-- `grid_height = int(height / cell_size) + 1`. -/
noncomputable def grid_height (height min_distance : ℝ) : ℤ :=
  pyInt (height / cell_size min_distance) + 1

/-- Grid cell of a point: `(int(p.x / cell_size), int(p.y / cell_size))`. -/
noncomputable def cellOf (cs : ℝ) (p : Vec3) : ℤ × ℤ :=
  (pyInt (p.x / cs), pyInt (p.y / cs))

/-- The sampling grid, as a map from cell coordinates to an optional occupant
(`None` initially, every store stays within bounds on valid inputs). -/
def Grid := ℤ → ℤ → Option Vec3

/-- Store a point into its grid cell: `grid[gx][gy] = p`. -/
def gridStore (g : Grid) (c : ℤ × ℤ) (p : Vec3) : Grid :=
  fun i j => if i = c.1 ∧ j = c.2 then some p else g i j

/-- `is_valid_point`: no occupied cell of the 5×5 neighborhood (clipped to the
grid) holds a point closer than `min_distance`. -/
noncomputable def is_valid_point (point : Vec3) (grid : Grid)
    (cs min_distance : ℝ) (gw gh : ℤ) : Prop :=
  ∀ i j, max 0 (pyInt (point.x / cs) - 2) ≤ i → i < min gw (pyInt (point.x / cs) + 3) →
    max 0 (pyInt (point.y / cs) - 2) ≤ j → j < min gh (pyInt (point.y / cs) + 3) →
    ∀ q, grid i j = some q → ¬ (point - q).length < min_distance

/-- Parameters of one `generate_poisson_disk_samples` call, with its stream. -/
structure Ctx where
  width : ℝ
  height : ℝ
  min_distance : ℝ
  max_attempts : ℕ
  stream : RandStream

/-- Mutable state of the sampling loop: the grid, the output list, the active
list, and the positions reached in the two draw streams. -/
structure PState where
  grid : Grid
  points : List Vec3
  active : List Vec3
  kr : ℕ
  kn : ℕ

/-- The initial point: `Vector((uniform(0, width), uniform(0, height), 0))`. -/
noncomputable def first_point (width height : ℝ) (s : RandStream) : Vec3 :=
  ⟨uniform 0 width (s.real 0), uniform 0 height (s.real 1), 0⟩

/-- State after the set-up phase (lines 22–37): empty grid except the seed
point, which is also the whole `points` and `active_list` contents. -/
noncomputable def init (C : Ctx) : PState :=
  let fp := first_point C.width C.height C.stream
  { grid := gridStore (fun _ _ => none) (cellOf (cell_size C.min_distance) fp) fp
    points := [fp]
    active := [fp]
    kr := 2
    kn := 0 }

/-- The inner `for _ in range(max_attempts)` loop.  Each attempt consumes four
real draws (`angle` — drawn but unused by the source —, `radius`, and the two
per-axis factors), and yields the first candidate that is inside the domain
and valid, together with the next stream position. -/
noncomputable def attemptLoop (C : Ctx) (grid : Grid) (point : Vec3) :
    ℕ → ℕ → Option Vec3 × ℕ
  | 0, kr => (none, kr)
  | n + 1, kr =>
      let radius := uniform C.min_distance (2 * C.min_distance) (C.stream.real (kr + 1))
      let new_x := point.x + radius * uniform (-1) 1 (C.stream.real (kr + 2))
      let new_y := point.y + radius * uniform (-1) 1 (C.stream.real (kr + 3))
      if 0 ≤ new_x ∧ new_x < C.width ∧ 0 ≤ new_y ∧ new_y < C.height then
        if is_valid_point ⟨new_x, new_y, 0⟩ grid (cell_size C.min_distance)
            C.min_distance (grid_width C.width C.min_distance)
            (grid_height C.height C.min_distance) then
          (some ⟨new_x, new_y, 0⟩, kr + 4)
        else attemptLoop C grid point n (kr + 4)
      else attemptLoop C grid point n (kr + 4)

/-- One iteration of the `while active_list` loop: pick a random index, try up
to `max_attempts` candidates from that point; append an accepted candidate to
`points`, `active_list` and the grid, else pop the index from `active_list`. -/
noncomputable def step (C : Ctx) (s : PState) : PState :=
  let idx := C.stream.nat s.kn % s.active.length
  let point := s.active.getD idx default
  match attemptLoop C s.grid point C.max_attempts s.kr with
  | (some np, kr') =>
      { grid := gridStore s.grid (cellOf (cell_size C.min_distance) np) np
        points := s.points ++ [np]
        active := s.active ++ [np]
        kr := kr'
        kn := s.kn + 1 }
  | (none, kr') =>
      { grid := s.grid
        points := s.points
        active := s.active.eraseIdx idx
        kr := kr'
        kn := s.kn + 1 }

/-- The state after `n` iterations of the while loop (stationary once the
active list is empty). -/
noncomputable def stepsTo (C : Ctx) : ℕ → PState
  | 0 => init C
  | n + 1 =>
      let s := stepsTo C n
      match s.active with
      | [] => s
      | _ :: _ => step C s

/-- `generate_poisson_disk_samples`, run with `fuel` loop iterations: returns
the `points` list once the active list has emptied, `none` if the given fuel
does not reach that (the termination theorem bounds the fuel needed). -/
noncomputable def generate_poisson_disk_samples (width height min_distance : ℝ)
    (max_attempts : ℕ) (stream : RandStream) (fuel : ℕ) : Option (List Vec3) :=
  let s := stepsTo ⟨width, height, min_distance, max_attempts, stream⟩ fuel
  match s.active with
  | [] => some s.points
  | _ :: _ => none

/-! ## Arithmetic lemmas -/

theorem pyInt_of_nonneg {x : ℝ} (h : 0 ≤ x) : pyInt x = ⌊x⌋ := if_pos h

theorem sqrt2_pos : (0 : ℝ) < Real.sqrt 2 := Real.sqrt_pos.mpr (by norm_num)

theorem one_lt_sqrt2 : (1 : ℝ) < Real.sqrt 2 := by
  rw [show (1 : ℝ) = Real.sqrt 1 by simp]
  exact Real.sqrt_lt_sqrt (by norm_num) (by norm_num)

theorem cell_size_pos {md : ℝ} (h : 0 < md) : 0 < cell_size md :=
  div_pos h sqrt2_pos

theorem cell_size_mul_sqrt2 (md : ℝ) : cell_size md * Real.sqrt 2 = md :=
  div_mul_cancel₀ md (ne_of_gt sqrt2_pos)

theorem md_lt_two_cell_size {md : ℝ} (h : 0 < md) : md < 2 * cell_size md := by
  have h2 : 2 * cell_size md = Real.sqrt 2 * md := by
    unfold cell_size
    rw [mul_div_assoc']
    rw [show (2 : ℝ) * md / Real.sqrt 2 = (2 / Real.sqrt 2) * md by ring]
    rw [show (2 : ℝ) / Real.sqrt 2 = Real.sqrt 2 from Real.div_sqrt]
  rw [h2]
  nlinarith [one_lt_sqrt2]

/-- Cell indices three apart force a coordinate gap above two cells. -/
theorem floor_gap {x y : ℝ} (h : ⌊y⌋ + 3 ≤ ⌊x⌋) : 2 < x - y := by
  have h1 : (⌊x⌋ : ℝ) ≤ x := Int.floor_le x
  have h2 : y - 1 < (⌊y⌋ : ℝ) := Int.sub_one_lt_floor y
  have h3 : (⌊y⌋ : ℝ) + 3 ≤ (⌊x⌋ : ℝ) := by exact_mod_cast h
  linarith

/-- Equal cell indices force the coordinates within one cell of each other. -/
theorem abs_sub_lt_of_floor_div_eq {a b cs : ℝ} (hcs : 0 < cs)
    (h : ⌊a / cs⌋ = ⌊b / cs⌋) : |a - b| < cs := by
  have h1 : a / cs < (⌊a / cs⌋ : ℝ) + 1 := Int.lt_floor_add_one _
  have h2 : b / cs < (⌊b / cs⌋ : ℝ) + 1 := Int.lt_floor_add_one _
  have h3 : (⌊a / cs⌋ : ℝ) ≤ a / cs := Int.floor_le _
  have h4 : (⌊b / cs⌋ : ℝ) ≤ b / cs := Int.floor_le _
  have h5 : |a / cs - b / cs| < 1 := by
    rw [abs_lt]
    constructor <;> [skip; skip] <;> rw [h] at * <;> linarith
  rw [div_sub_div_same] at h5
  rw [abs_div, abs_of_pos hcs, div_lt_one hcs] at h5
  exact h5

/-- Index of an in-domain coordinate lies inside the grid range. -/
theorem cell_index_bounds {px w md : ℝ} (hmd : 0 < md) (h0 : 0 ≤ px) (hw : px < w) :
    0 ≤ pyInt (px / cell_size md) ∧
      pyInt (px / cell_size md) < pyInt (w / cell_size md) + 1 := by
  have hcs := cell_size_pos hmd
  have hq : 0 ≤ px / cell_size md := div_nonneg h0 hcs.le
  have hw0 : 0 ≤ w / cell_size md := le_trans hq (by gcongr)
  rw [pyInt_of_nonneg hq, pyInt_of_nonneg hw0]
  refine ⟨Int.floor_nonneg.mpr hq, ?_⟩
  have : ⌊px / cell_size md⌋ ≤ ⌊w / cell_size md⌋ :=
    Int.floor_le_floor (by gcongr)
  omega

/-- A draw `uniform 0 b v` with `v ∈ [0,1)` lies in `[0, b)` for positive `b`. -/
theorem uniform_mem {b v : ℝ} (hb : 0 < b) (h0 : 0 ≤ v) (h1 : v < 1) :
    0 ≤ uniform 0 b v ∧ uniform 0 b v < b := by
  unfold uniform
  constructor
  · nlinarith
  · nlinarith

/-! ## Validity geometry -/

/-- A scanned-window miss on one axis forces a gap above two cells. -/
theorem axis_gap {a b cs : ℝ} {G : ℤ} (hcs : 0 < cs) (ha : 0 ≤ a) (hb : 0 ≤ b)
    (hbG : pyInt (b / cs) < G)
    (hout : pyInt (b / cs) < max 0 (pyInt (a / cs) - 2) ∨
            min G (pyInt (a / cs) + 3) ≤ pyInt (b / cs)) :
    2 * cs < |a - b| := by
  have hqa : 0 ≤ a / cs := div_nonneg ha hcs.le
  have hqb : 0 ≤ b / cs := div_nonneg hb hcs.le
  rw [pyInt_of_nonneg hqa, pyInt_of_nonneg hqb] at *
  have hbnn : 0 ≤ ⌊b / cs⌋ := Int.floor_nonneg.mpr hqb
  rcases hout with hlt | hge
  · -- b's index is left of the window: `⌊b⌋ + 3 ≤ ⌊a⌋`
    have h3 : ⌊b / cs⌋ + 3 ≤ ⌊a / cs⌋ := by
      rcases le_or_lt (⌊a / cs⌋ - 2) 0 with hc | hc
      · rw [max_eq_left hc] at hlt; omega
      · rw [max_eq_right hc.le] at hlt; omega
    have := floor_gap h3
    have h2cs : 2 * cs < a - b := by
      have : 2 < (a - b) / cs := by rw [div_sub_div_same] at *; linarith
      calc 2 * cs < ((a - b) / cs) * cs := by
            apply mul_lt_mul_of_pos_right this hcs
        _ = a - b := div_mul_cancel₀ _ (ne_of_gt hcs)
    calc 2 * cs < a - b := h2cs
      _ ≤ |a - b| := le_abs_self _
  · -- b's index is right of the window: `⌊a⌋ + 3 ≤ ⌊b⌋`
    have h3 : ⌊a / cs⌋ + 3 ≤ ⌊b / cs⌋ := by
      rcases le_total G (⌊a / cs⌋ + 3) with hc | hc
      · rw [min_eq_left hc] at hge; omega
      · rw [min_eq_right hc] at hge; omega
    have := floor_gap h3
    have h2cs : 2 * cs < b - a := by
      have : 2 < (b - a) / cs := by rw [div_sub_div_same] at *; linarith
      calc 2 * cs < ((b - a) / cs) * cs := by
            apply mul_lt_mul_of_pos_right this hcs
        _ = b - a := div_mul_cancel₀ _ (ne_of_gt hcs)
    calc 2 * cs < b - a := h2cs
      _ ≤ |a - b| := by rw [abs_sub_comm]; exact le_abs_self _

/-- In-bounds coordinates, as recorded for every stored point. -/
def InBounds (w h : ℝ) (p : Vec3) : Prop :=
  0 ≤ p.x ∧ p.x < w ∧ 0 ≤ p.y ∧ p.y < h ∧ p.z = 0

/-- Core spacing fact: a candidate accepted by `is_valid_point` is at least
`min_distance` away from every point stored in its own cell — the 5×5 window
reaches every stored point within `min_distance`, and points outside the
window are further than `min_distance` away. -/
theorem valid_ge_md {w h md : ℝ} {grid : Grid} {np q : Vec3}
    (hmd : 0 < md) (hnp : InBounds w h np) (hq : InBounds w h q)
    (hqg : grid (cellOf (cell_size md) q).1 (cellOf (cell_size md) q).2 = some q)
    (hv : is_valid_point np grid (cell_size md) md (grid_width w md) (grid_height h md)) :
    md ≤ (np - q).length := by
  have hcs := cell_size_pos hmd
  obtain ⟨hnx0, hnxw, hny0, hnyh, hnz⟩ := hnp
  obtain ⟨hqx0, hqxw, hqy0, hqyh, hqz⟩ := hq
  have hqi := cell_index_bounds hmd hqx0 hqxw
  have hqj := cell_index_bounds hmd hqy0 hqyh
  by_cases hix : max 0 (pyInt (np.x / cell_size md) - 2) ≤ pyInt (q.x / cell_size md) ∧
      pyInt (q.x / cell_size md) < min (grid_width w md) (pyInt (np.x / cell_size md) + 3)
  · by_cases hjy : max 0 (pyInt (np.y / cell_size md) - 2) ≤ pyInt (q.y / cell_size md) ∧
        pyInt (q.y / cell_size md) < min (grid_height h md) (pyInt (np.y / cell_size md) + 3)
    · -- the cell of q is inside the scanned window: the direct check applies
      have := hv (pyInt (q.x / cell_size md)) (pyInt (q.y / cell_size md))
        hix.1 hix.2 hjy.1 hjy.2 q hqg
      linarith [not_lt.mp this]
    · -- window miss on the y axis
      have hout : pyInt (q.y / cell_size md) < max 0 (pyInt (np.y / cell_size md) - 2) ∨
          min (grid_height h md) (pyInt (np.y / cell_size md) + 3) ≤
            pyInt (q.y / cell_size md) := by
        rcases not_and_or.mp hjy with hA | hB
        · exact Or.inl (lt_of_not_le hA)
        · exact Or.inr (le_of_not_lt hB)
      have hbGy : pyInt (q.y / cell_size md) < grid_height h md := by
        unfold grid_height; exact hqj.2
      have hgap : 2 * cell_size md < |np.y - q.y| :=
        axis_gap hcs hny0 hqy0 hbGy hout
      have h1 : md < 2 * cell_size md := md_lt_two_cell_size hmd
      have h2 : |np.y - q.y| ≤ (np - q).length := Vec3.abs_sub_y_le_length np q
      linarith
  · -- window miss on the x axis
    have hout : pyInt (q.x / cell_size md) < max 0 (pyInt (np.x / cell_size md) - 2) ∨
        min (grid_width w md) (pyInt (np.x / cell_size md) + 3) ≤
          pyInt (q.x / cell_size md) := by
      rcases not_and_or.mp hix with hA | hB
      · exact Or.inl (lt_of_not_le hA)
      · exact Or.inr (le_of_not_lt hB)
    have hbGx : pyInt (q.x / cell_size md) < grid_width w md := by
      unfold grid_width; exact hqi.2
    have hgap : 2 * cell_size md < |np.x - q.x| :=
      axis_gap hcs hnx0 hqx0 hbGx hout
    have h1 : md < 2 * cell_size md := md_lt_two_cell_size hmd
    have h2 : |np.x - q.x| ≤ (np - q).length := Vec3.abs_sub_x_le_length np q
    linarith

/-- The candidate's own cell is empty when the candidate is accepted: any
occupant of that cell would be strictly within `min_distance` (two points of
one cell are within `cell_size * sqrt 2 = min_distance`), contradicting the
neighborhood check. -/
theorem valid_cell_empty {w h md : ℝ} {grid : Grid} {np : Vec3}
    (hmd : 0 < md) (hnp : InBounds w h np)
    (hcell : ∀ i j q, grid i j = some q → cellOf (cell_size md) q = (i, j))
    (hocc : ∀ i j q, grid i j = some q → InBounds w h q)
    (hv : is_valid_point np grid (cell_size md) md (grid_width w md) (grid_height h md)) :
    grid (cellOf (cell_size md) np).1 (cellOf (cell_size md) np).2 = none := by
  have hcs := cell_size_pos hmd
  obtain ⟨hnx0, hnxw, hny0, hnyh, hnz⟩ := hnp
  cases hg : grid (cellOf (cell_size md) np).1 (cellOf (cell_size md) np).2 with
  | none => rfl
  | some q =>
      exfalso
      have hqcell := hcell _ _ _ hg
      have hqb := hocc _ _ _ hg
      obtain ⟨hqx0, hqxw, hqy0, hqyh, hqz⟩ := hqb
      -- q sits in the same cell as np
      have hx : pyInt (q.x / cell_size md) = pyInt (np.x / cell_size md) := by
        have := congrArg Prod.fst hqcell
        simpa [cellOf] using this
      have hy : pyInt (q.y / cell_size md) = pyInt (np.y / cell_size md) := by
        have := congrArg Prod.snd hqcell
        simpa [cellOf] using this
      have hfx : ⌊q.x / cell_size md⌋ = ⌊np.x / cell_size md⌋ := by
        rw [pyInt_of_nonneg (div_nonneg hqx0 hcs.le),
            pyInt_of_nonneg (div_nonneg hnx0 hcs.le)] at hx
        exact hx
      have hfy : ⌊q.y / cell_size md⌋ = ⌊np.y / cell_size md⌋ := by
        rw [pyInt_of_nonneg (div_nonneg hqy0 hcs.le),
            pyInt_of_nonneg (div_nonneg hny0 hcs.le)] at hy
        exact hy
      have hax : |np.x - q.x| < cell_size md := by
        rw [abs_sub_comm]
        exact abs_sub_lt_of_floor_div_eq hcs hfx
      have hay : |np.y - q.y| < cell_size md := by
        rw [abs_sub_comm]
        exact abs_sub_lt_of_floor_div_eq hcs hfy
      have hlen : (np - q).length < cell_size md * Real.sqrt 2 :=
        Vec3.length_lt_of_abs_lt hcs hax hay (hnz.trans hqz.symm)
      rw [cell_size_mul_sqrt2] at hlen
      -- apply the validity check at np's own cell
      have hnpi := cell_index_bounds hmd hnx0 hnxw
      have hnpj := cell_index_bounds hmd hny0 hnyh
      have hgw : pyInt (np.x / cell_size md) < grid_width w md := by
        unfold grid_width; omega
      have hgh : pyInt (np.y / cell_size md) < grid_height h md := by
        unfold grid_height; omega
      have := hv (pyInt (np.x / cell_size md)) (pyInt (np.y / cell_size md))
        (max_le (hnpi.1) (by omega))
        (lt_min_iff.mpr ⟨hgw, by omega⟩)
        (max_le (hnpj.1) (by omega))
        (lt_min_iff.mpr ⟨hgh, by omega⟩)
        q (by simpa [cellOf] using hg)
      exact this hlen

/-- Valid call parameters: positive domain and positive minimum distance. -/
structure CtxValid (C : Ctx) : Prop where
  wpos : 0 < C.width
  hpos : 0 < C.height
  mdpos : 0 < C.min_distance

/-- A point produced by the attempt loop passed the bounds check and the
neighborhood check against the grid it was tested on. -/
theorem attemptLoop_some {C : Ctx} {grid : Grid} {point np : Vec3} :
    ∀ {n kr kr'}, attemptLoop C grid point n kr = (some np, kr') →
      InBounds C.width C.height np ∧
      is_valid_point np grid (cell_size C.min_distance) C.min_distance
        (grid_width C.width C.min_distance) (grid_height C.height C.min_distance) := by
  intro n
  induction n with
  | zero =>
      intro kr kr' h
      simp [attemptLoop] at h
  | succ n ih =>
      intro kr kr' h
      simp only [attemptLoop] at h
      split_ifs at h with h1 h2
      · obtain ⟨hnp, _⟩ := Prod.mk.injEq .. ▸ h
        have hnp' := Option.some.inj (by exact hnp)
        subst hnp'
        exact ⟨⟨h1.1, h1.2.1, h1.2.2.1, h1.2.2.2, rfl⟩, h2⟩
      · exact ih h
      · exact ih h

/-- Loop invariant of the sampler: every grid occupant sits in its own cell
and is a recorded point, every recorded point is registered in its cell,
points stay inside the domain (at height 0), and points are pairwise at least
`min_distance` apart. -/
structure Inv (C : Ctx) (s : PState) : Prop where
  grid_cell : ∀ i j q, s.grid i j = some q →
    cellOf (cell_size C.min_distance) q = (i, j)
  grid_mem : ∀ i j q, s.grid i j = some q → q ∈ s.points
  mem_grid : ∀ p, p ∈ s.points →
    s.grid (cellOf (cell_size C.min_distance) p).1
      (cellOf (cell_size C.min_distance) p).2 = some p
  bounds : ∀ p ∈ s.points, InBounds C.width C.height p
  pair : s.points.Pairwise (fun p q => C.min_distance ≤ (p - q).length)

theorem inv_init {C : Ctx} (hV : CtxValid C) : Inv C (init C) := by
  have hfp : InBounds C.width C.height (first_point C.width C.height C.stream) := by
    obtain ⟨h0, h1⟩ := C.stream.real_range 0
    obtain ⟨h0', h1'⟩ := C.stream.real_range 1
    have hx := uniform_mem hV.wpos h0 h1
    have hy := uniform_mem hV.hpos h0' h1'
    exact ⟨hx.1, hx.2, hy.1, hy.2, rfl⟩
  constructor
  · intro i j q hq
    simp only [init, gridStore, Option.ite_none_right_eq_some, Option.some.injEq] at hq
    rcases hq with ⟨⟨hi, hj⟩, hfpq⟩
    subst hfpq
    exact Prod.ext hi.symm hj.symm
  · intro i j q hq
    simp only [init, gridStore, Option.ite_none_right_eq_some, Option.some.injEq] at hq
    rcases hq with ⟨⟨hi, hj⟩, hfpq⟩
    subst hfpq
    simp [init]
  · intro p hp
    simp only [init, List.mem_singleton] at hp
    subst hp
    simp [init, gridStore]
  · intro p hp
    simp only [init, List.mem_singleton] at hp
    subst hp
    exact hfp
  · simp [init]

/-- Shape of `step` on an iteration that accepts a candidate. -/
theorem step_accept {C : Ctx} {s : PState} {np : Vec3} {kr' : ℕ}
    (h : attemptLoop C s.grid (s.active.getD (C.stream.nat s.kn % s.active.length)
        default) C.max_attempts s.kr = (some np, kr')) :
    step C s =
      { grid := gridStore s.grid (cellOf (cell_size C.min_distance) np) np
        points := s.points ++ [np]
        active := s.active ++ [np]
        kr := kr'
        kn := s.kn + 1 } := by
  simp only [step]
  rw [h]

/-- Shape of `step` on an iteration that exhausts its attempts. -/
theorem step_reject {C : Ctx} {s : PState} {kr' : ℕ}
    (h : attemptLoop C s.grid (s.active.getD (C.stream.nat s.kn % s.active.length)
        default) C.max_attempts s.kr = (none, kr')) :
    step C s =
      { grid := s.grid
        points := s.points
        active := s.active.eraseIdx (C.stream.nat s.kn % s.active.length)
        kr := kr'
        kn := s.kn + 1 } := by
  simp only [step]
  rw [h]

theorem inv_step {C : Ctx} (hV : CtxValid C) {s : PState} (hs : Inv C s) :
    Inv C (step C s) := by
  cases hres : attemptLoop C s.grid (s.active.getD (C.stream.nat s.kn % s.active.length)
      default) C.max_attempts s.kr with
  | mk onp kr' =>
    cases onp with
    | none =>
        rw [step_reject hres]
        exact ⟨hs.grid_cell, hs.grid_mem, hs.mem_grid, hs.bounds, hs.pair⟩
    | some np =>
        obtain ⟨hnpb, hnpv⟩ := attemptLoop_some hres
        have hempty := valid_cell_empty hV.mdpos hnpb hs.grid_cell
          (fun i j q hq => hs.bounds q (hs.grid_mem i j q hq)) hnpv
        have hfar : ∀ q ∈ s.points, C.min_distance ≤ (np - q).length := fun q hq =>
          valid_ge_md hV.mdpos hnpb (hs.bounds q hq)
            (hs.mem_grid q hq) hnpv
        rw [step_accept hres]
        constructor
        · intro i j q hq
          simp only [gridStore] at hq
          split_ifs at hq with hc
          · cases hq
            exact Prod.ext hc.1.symm hc.2.symm
          · exact hs.grid_cell i j q hq
        · intro i j q hq
          simp only [gridStore] at hq
          split_ifs at hq with hc
          · cases hq
            exact List.mem_append_right _ (List.mem_singleton.mpr rfl)
          · exact List.mem_append_left _ (hs.grid_mem i j q hq)
        · intro p hp
          rcases List.mem_append.mp hp with hp | hp
          · have hold := hs.mem_grid p hp
            have hne : cellOf (cell_size C.min_distance) p ≠
                cellOf (cell_size C.min_distance) np := by
              intro heq
              rw [heq] at hold
              rw [hold] at hempty
              cases hempty
            simp only [gridStore]
            rw [if_neg]
            · exact hold
            · intro hc
              exact hne (Prod.ext hc.1 hc.2)
          · rw [List.mem_singleton.mp hp]
            simp [gridStore]
        · intro p hp
          rcases List.mem_append.mp hp with hp | hp
          · exact hs.bounds p hp
          · rw [List.mem_singleton.mp hp]; exact hnpb
        · rw [List.pairwise_append]
          refine ⟨hs.pair, List.pairwise_singleton _ _, ?_⟩
          intro a ha b hb
          rw [List.mem_singleton.mp hb]
          rw [Vec3.length_comm]
          exact hfar a ha

theorem inv_stepsTo {C : Ctx} (hV : CtxValid C) : ∀ n, Inv C (stepsTo C n) := by
  intro n
  induction n with
  | zero => exact inv_init hV
  | succ n ih =>
      simp only [stepsTo]
      cases hact : (stepsTo C n).active with
      | nil => exact ih
      | cons a as =>
          simpa using inv_step hV ih

/-! ## Termination -/

/-- The allocated grid cells, `grid_width × grid_height` of them. -/
noncomputable def cellsFinset (C : Ctx) : Finset (ℤ × ℤ) :=
  Finset.Ico 0 (grid_width C.width C.min_distance) ×ˢ
    Finset.Ico 0 (grid_height C.height C.min_distance)

/-- Number of still-unoccupied grid cells. -/
noncomputable def emptyCount (C : Ctx) (s : PState) : ℕ :=
  ((cellsFinset C).filter (fun c => (s.grid c.1 c.2).isNone = true)).card

/-- Termination measure: active points plus twice the empty cells.  A popped
point decreases the first summand; an accepted point fills a previously empty
cell, trading two units of the second summand for one active point. -/
noncomputable def loopMeasure (C : Ctx) (s : PState) : ℕ :=
  s.active.length + 2 * emptyCount C s

theorem cellsFinset_card (C : Ctx) :
    (cellsFinset C).card = (grid_width C.width C.min_distance).toNat *
      (grid_height C.height C.min_distance).toNat := by
  unfold cellsFinset
  rw [Finset.card_product, Int.card_Ico, Int.card_Ico, sub_zero, sub_zero]

theorem measure_step_lt {C : Ctx} (hV : CtxValid C) {s : PState} (hs : Inv C s)
    (hne : s.active ≠ []) : loopMeasure C (step C s) < loopMeasure C s := by
  have hlen : 0 < s.active.length := List.length_pos.mpr hne
  have hidx : C.stream.nat s.kn % s.active.length < s.active.length :=
    Nat.mod_lt _ hlen
  cases hres : attemptLoop C s.grid (s.active.getD (C.stream.nat s.kn % s.active.length)
      default) C.max_attempts s.kr with
  | mk onp kr' =>
    cases onp with
    | none =>
        rw [step_reject hres]
        unfold loopMeasure emptyCount
        simp only
        have := List.length_eraseIdx_add_one hidx
        omega
    | some np =>
        obtain ⟨hnpb, hnpv⟩ := attemptLoop_some hres
        have hempty := valid_cell_empty hV.mdpos hnpb hs.grid_cell
          (fun i j q hq => hs.bounds q (hs.grid_mem i j q hq)) hnpv
        obtain ⟨hnx0, hnxw, hny0, hnyh, _⟩ := hnpb
        have hcx := cell_index_bounds hV.mdpos hnx0 hnxw
        have hcy := cell_index_bounds hV.mdpos hny0 hnyh
        have hmem : cellOf (cell_size C.min_distance) np ∈ cellsFinset C := by
          unfold cellsFinset
          rw [Finset.mem_product, Finset.mem_Ico, Finset.mem_Ico]
          refine ⟨⟨hcx.1, ?_⟩, ⟨hcy.1, ?_⟩⟩
          · unfold grid_width; unfold cellOf; simp only; omega
          · unfold grid_height; unfold cellOf; simp only; omega
        rw [step_accept hres]
        unfold loopMeasure emptyCount
        simp only
        -- the filter of empty cells loses exactly the filled cell
        have hfilter :
            (cellsFinset C).filter (fun c =>
              ((gridStore s.grid (cellOf (cell_size C.min_distance) np) np)
                c.1 c.2).isNone = true) =
            ((cellsFinset C).filter (fun c => (s.grid c.1 c.2).isNone = true)).erase
              (cellOf (cell_size C.min_distance) np) := by
          ext c
          rw [Finset.mem_erase, Finset.mem_filter, Finset.mem_filter]
          constructor
          · intro ⟨hcm, hcn⟩
            unfold gridStore at hcn
            split_ifs at hcn with hc
            · simp at hcn
            · refine ⟨?_, hcm, hcn⟩
              intro hceq
              exact hc ⟨by rw [hceq], by rw [hceq]⟩
          · intro ⟨hcne, hcm, hcn⟩
            refine ⟨hcm, ?_⟩
            unfold gridStore
            rw [if_neg]
            · exact hcn
            · intro hc
              exact hcne (Prod.ext hc.1 hc.2)
        rw [hfilter]
        have hmemf : cellOf (cell_size C.min_distance) np ∈
            (cellsFinset C).filter (fun c => (s.grid c.1 c.2).isNone = true) := by
          rw [Finset.mem_filter]
          exact ⟨hmem, by rw [hempty]; rfl⟩
        rw [Finset.card_erase_of_mem hmemf]
        have hpos : 0 < ((cellsFinset C).filter
            (fun c => (s.grid c.1 c.2).isNone = true)).card :=
          Finset.card_pos.mpr ⟨_, hmemf⟩
        rw [List.length_append]
        simp only [List.length_singleton]
        omega

theorem stepsTo_stationary {C : Ctx} {n : ℕ} (h : (stepsTo C n).active = []) :
    ∀ m, n ≤ m → stepsTo C m = stepsTo C n := by
  intro m hm
  induction m with
  | zero => cases Nat.le_zero.mp hm; rfl
  | succ m ih =>
      rcases Nat.lt_or_ge n (m + 1) with hlt | hge
      · have hnm : n ≤ m := Nat.lt_succ_iff.mp hlt
        have heq := ih hnm
        show (match (stepsTo C m).active with
          | [] => stepsTo C m
          | _ :: _ => step C (stepsTo C m)) = stepsTo C n
        rw [heq, h]
      · have : n = m + 1 := le_antisymm hm hge
        rw [this]

theorem measure_progress {C : Ctx} (hV : CtxValid C) :
    ∀ n, (stepsTo C n).active = [] ∨
      loopMeasure C (stepsTo C n) + n ≤ loopMeasure C (init C) := by
  intro n
  induction n with
  | zero => right; simp [stepsTo]
  | succ n ih =>
      cases hact : (stepsTo C n).active with
      | nil =>
          left
          have : stepsTo C (n + 1) = stepsTo C n :=
            stepsTo_stationary hact (n + 1) (Nat.le_succ n)
          rw [this, hact]
      | cons a as =>
          rcases ih with h | h
          · rw [hact] at h; cases h
          · right
            have hstep : stepsTo C (n + 1) = step C (stepsTo C n) := by
              show (match (stepsTo C n).active with
                | [] => stepsTo C n
                | _ :: _ => step C (stepsTo C n)) = step C (stepsTo C n)
              rw [hact]
            have hlt := measure_step_lt hV (inv_stepsTo hV n)
              (by rw [hact]; simp)
            rw [hstep]
            omega

theorem active_empty_of_fuel {C : Ctx} (hV : CtxValid C) {fuel : ℕ}
    (hf : loopMeasure C (init C) ≤ fuel) : (stepsTo C fuel).active = [] := by
  rcases measure_progress hV fuel with h | h
  · exact h
  · have hlen : (stepsTo C fuel).active.length = 0 := by
      have : loopMeasure C (stepsTo C fuel) = 0 := by omega
      unfold loopMeasure at this
      omega
    exact List.length_eq_zero.mp hlen

/-- The head of the output list is always the seed point. -/
theorem stepsTo_points_head (C : Ctx) :
    ∀ n, (stepsTo C n).points.head? =
      some (first_point C.width C.height C.stream) := by
  intro n
  induction n with
  | zero => rfl
  | succ n ih =>
      show (match (stepsTo C n).active with
        | [] => stepsTo C n
        | _ :: _ => step C (stepsTo C n)).points.head? = _
      cases hact : (stepsTo C n).active with
      | nil => exact ih
      | cons a as =>
          simp only
          cases hres : attemptLoop C (stepsTo C n).grid
              ((stepsTo C n).active.getD
                (C.stream.nat (stepsTo C n).kn % (stepsTo C n).active.length)
                default) C.max_attempts (stepsTo C n).kr with
          | mk onp kr' =>
            cases onp with
            | none => rw [step_reject hres]; exact ih
            | some np =>
                rw [step_accept hres]
                simp only
                cases hpts : (stepsTo C n).points with
                | nil => rw [hpts] at ih; cases ih
                | cons p ps =>
                    rw [hpts] at ih
                    simpa using ih

/-- Inversion of a successful run: the returned list is the final `points`
and the active list has emptied. -/
theorem gen_eq_some {width height min_distance : ℝ} {max_attempts : ℕ}
    {stream : RandStream} {fuel : ℕ} {pts : List Vec3}
    (h : generate_poisson_disk_samples width height min_distance max_attempts
      stream fuel = some pts) :
    pts = (stepsTo ⟨width, height, min_distance, max_attempts, stream⟩ fuel).points := by
  simp only [generate_poisson_disk_samples] at h
  cases hact : (stepsTo ⟨width, height, min_distance, max_attempts, stream⟩ fuel).active with
  | nil =>
      rw [hact] at h
      simp only at h
      exact (Option.some.inj h).symm
  | cons a as =>
      rw [hact] at h
      cases h

/-! ## Claim theorems -/

/-- C3: `check_collision_sphere` (and `CollisionManager.check_collision` over
its current entries) holds iff some existing entry is strictly within the
summed-radius distance; on the empty list it is false, and an entry at exactly
the summed distance does not count (strict `<`). -/
theorem check_collision_sphere_spec :
    (∀ (position : Vec3) (radius : ℝ) (existing_objects : List (Vec3 × ℝ)),
      check_collision_sphere position radius existing_objects ↔
        ∃ e ∈ existing_objects, (position - e.1).length < radius + e.2) ∧
    (∀ (m : CollisionManager) (position : Vec3) (radius : ℝ),
      m.check_collision position radius ↔
        ∃ e ∈ m.objects, (position - e.1).length < radius + e.2) ∧
    (∀ (position : Vec3) (radius : ℝ),
      check_collision_sphere position radius [] ↔ False) := by
  have key : ∀ (position : Vec3) (radius : ℝ) (l : List (Vec3 × ℝ)),
      check_collision_sphere position radius l ↔
        ∃ e ∈ l, (position - e.1).length < radius + e.2 := by
    intro position radius l
    induction l with
    | nil => simp [check_collision_sphere]
    | cons e rest ih => simp [check_collision_sphere, ih]
  exact ⟨key, fun m position radius => key position radius m.objects,
    fun position radius => by simp [check_collision_sphere]⟩

/-- C3 witness: the fixtures of the specification — an entry at the origin
with radius 1 collides with a query at distance 1.5 and radius 1, and does
not collide with a query at distance 3. -/
theorem check_collision_sphere_spec_witness :
    check_collision_sphere ⟨1.5, 0, 0⟩ 1 [(⟨0, 0, 0⟩, 1)] ∧
    (check_collision_sphere ⟨3, 0, 0⟩ 1 [(⟨0, 0, 0⟩, 1)] ↔ False) := by
  have h15 : ((⟨1.5, 0, 0⟩ : Vec3) - ⟨0, 0, 0⟩).length = 1.5 := by
    unfold Vec3.length
    rw [Vec3.sub_x, Vec3.sub_y, Vec3.sub_z]
    rw [show ((1.5 : ℝ) - 0) ^ 2 + (0 - 0 : ℝ) ^ 2 + (0 - 0 : ℝ) ^ 2 = 1.5 ^ 2 by norm_num]
    exact Real.sqrt_sq (by norm_num)
  have h3 : ((⟨3, 0, 0⟩ : Vec3) - ⟨0, 0, 0⟩).length = 3 := by
    unfold Vec3.length
    rw [Vec3.sub_x, Vec3.sub_y, Vec3.sub_z]
    rw [show ((3 : ℝ) - 0) ^ 2 + (0 - 0 : ℝ) ^ 2 + (0 - 0 : ℝ) ^ 2 = 3 ^ 2 by norm_num]
    exact Real.sqrt_sq (by norm_num)
  constructor
  · rw [check_collision_sphere_spec.1]
    refine ⟨(⟨0, 0, 0⟩, 1), by simp, ?_⟩
    rw [h15]; norm_num
  · rw [check_collision_sphere_spec.1]
    simp only [iff_false, not_exists]
    rintro e ⟨he, hlt⟩
    rw [List.mem_singleton] at he
    subst he
    rw [h3] at hlt
    norm_num at hlt

/-- C4: `check_collision_bbox` holds iff some existing entry overlaps on all
three axes simultaneously, comparing the centre gap on each axis with the sum
of the two half extents (`size / 2`). -/
theorem check_collision_bbox_spec :
    ∀ (position bbox_size : Vec3) (existing_objects : List (Vec3 × Vec3)),
      check_collision_bbox position bbox_size existing_objects ↔
        ∃ e ∈ existing_objects,
          |position.x - e.1.x| < bbox_size.x / 2 + e.2.x / 2 ∧
          |position.y - e.1.y| < bbox_size.y / 2 + e.2.y / 2 ∧
          |position.z - e.1.z| < bbox_size.z / 2 + e.2.z / 2 := by
  intro position bbox_size l
  induction l with
  | nil => simp [check_collision_bbox]
  | cons e rest ih => simp [check_collision_bbox, Vec3.sdiv, ih]

/-- C4 witness: unit boxes of size 2 centred one apart overlap. -/
theorem check_collision_bbox_spec_witness :
    check_collision_bbox ⟨0, 0, 0⟩ ⟨2, 2, 2⟩ [(⟨1, 0, 0⟩, ⟨2, 2, 2⟩)] := by
  rw [check_collision_bbox_spec]
  refine ⟨(⟨1, 0, 0⟩, ⟨2, 2, 2⟩), by simp, ?_⟩
  norm_num

/-- C5: `is_valid_slope` accepts exactly when the clamped-arccos slope angle
is at most the threshold (boundary inclusive): the flat normal is accepted at
any nonnegative threshold, the horizontal normal `(1,0,0)` is accepted iff
the threshold reaches 90, and a normal at exactly 30 degrees is accepted at
threshold 30. -/
theorem is_valid_slope_spec :
    (∀ (normal : Vec3) (m : ℝ), is_valid_slope normal m ↔
      degrees (Real.arccos (max (-1) (min 1 (normal.dot ⟨0, 0, 1⟩)))) ≤ m) ∧
    (∀ m : ℝ, 0 ≤ m → is_valid_slope ⟨0, 0, 1⟩ m) ∧
    (∀ m : ℝ, is_valid_slope ⟨1, 0, 0⟩ m ↔ 90 ≤ m) ∧
    is_valid_slope ⟨1 / 2, 0, Real.sqrt 3 / 2⟩ 30 := by
  have hflat : calculate_slope_angle ⟨0, 0, 1⟩ = 0 := by
    unfold calculate_slope_angle Vec3.dot
    rw [show (0 : ℝ) * 0 + 0 * 0 + 1 * 1 = 1 by norm_num]
    rw [min_self, max_eq_right (by norm_num : (-1 : ℝ) ≤ 1), Real.arccos_one]
    unfold degrees
    rw [zero_mul, zero_div]
  have hhoriz : calculate_slope_angle ⟨1, 0, 0⟩ = 90 := by
    unfold calculate_slope_angle Vec3.dot
    rw [show (1 : ℝ) * 0 + 0 * 0 + 0 * 1 = 0 by norm_num]
    rw [min_eq_right (by norm_num : (0 : ℝ) ≤ 1),
        max_eq_right (by norm_num : (-1 : ℝ) ≤ 0), Real.arccos_zero]
    unfold degrees
    field_simp
    ring
  have h30 : calculate_slope_angle ⟨1 / 2, 0, Real.sqrt 3 / 2⟩ = 30 := by
    unfold calculate_slope_angle Vec3.dot
    rw [show (1 / 2 : ℝ) * 0 + 0 * 0 + Real.sqrt 3 / 2 * 1 = Real.sqrt 3 / 2 by ring]
    have hs3 : Real.sqrt 3 ≤ 2 := by
      rw [show (2 : ℝ) = Real.sqrt 4 by
        rw [show (4 : ℝ) = 2 ^ 2 by norm_num, Real.sqrt_sq (by norm_num)]]
      exact Real.sqrt_le_sqrt (by norm_num)
    rw [min_eq_right (by linarith), max_eq_right
      (by linarith [Real.sqrt_nonneg 3] : (-1 : ℝ) ≤ Real.sqrt 3 / 2)]
    rw [← Real.cos_pi_div_six, Real.arccos_cos (by positivity)
      (by linarith [Real.pi_pos])]
    unfold degrees
    field_simp
    ring
  refine ⟨fun normal m => Iff.rfl, ?_, ?_, ?_⟩
  · intro m hm
    unfold is_valid_slope
    rw [hflat]
    exact hm
  · intro m
    unfold is_valid_slope
    rw [hhoriz]
  · unfold is_valid_slope
    rw [h30]

/-- C5 witness: the flat normal is accepted at threshold 0. -/
theorem is_valid_slope_spec_witness : is_valid_slope ⟨0, 0, 1⟩ 0 :=
  is_valid_slope_spec.2.1 0 le_rfl

/-- The stream whose real draws are all 0 and whose integer draws are all 0. -/
def zeroStream : RandStream := ⟨fun _ => 0, fun _ => 0, fun _ => by norm_num⟩

/-- C6 counterexample: with the invalid configuration `min_distance = -1` (and
unit domain), the set-up phase of `generate_poisson_disk_samples` still draws
and records the seed point — no precondition error is signalled at entry; the
Python function only fails later, at the grid store, with an index error. -/
theorem poisson_no_validation_cex :
    ((-1 : ℝ) < 0) ∧ (init ⟨1, 1, -1, 0, zeroStream⟩).points.length = 1 :=
  ⟨by norm_num, rfl⟩

/-- C6 amended: `generate_poisson_disk_samples` performs no entry validation —
for every configuration, valid or not, the entry phase computes the grid and
records the seed point in `points` and in the active list before anything can
fail. -/
theorem poisson_no_entry_validation :
    ∀ (width height min_distance : ℝ) (max_attempts : ℕ) (stream : RandStream),
      (init ⟨width, height, min_distance, max_attempts, stream⟩).points =
        [first_point width height stream] ∧
      (init ⟨width, height, min_distance, max_attempts, stream⟩).active =
        [first_point width height stream] :=
  fun _ _ _ _ _ => ⟨rfl, rfl⟩

/-- A mesh object whose bounding box is a single point (zero extent). -/
def degenerateMesh : BlenderObject := ⟨"MESH", fun _ => ⟨0, 0, 0⟩⟩

/-- A non-mesh object (bounding box irrelevant). -/
def nonMeshObject : BlenderObject := ⟨"LIGHT", fun _ => ⟨0, 0, 0⟩⟩

/-- C7 counterexample: for a mesh whose bounding box has zero extent on every
axis, `get_object_radius` returns 0 — not a non-zero default radius. -/
theorem get_object_radius_degenerate_cex : get_object_radius degenerateMesh = 0 := by
  unfold get_object_radius get_object_bounds degenerateMesh
  rw [if_pos rfl]
  unfold max8 min8
  simp only
  norm_num [Vec3.sub_x, Vec3.sub_y, Vec3.sub_z]

/-- C7 amended: degenerate geometry does not raise an error, but a zero-extent
mesh degrades to radius 0, not to a non-zero default; only non-mesh objects
receive the default bounds `(1,1,1)` and hence radius `1/2`. -/
theorem get_object_radius_degenerate :
    (∀ obj : BlenderObject, obj.objType = "MESH" →
      (∀ k, obj.bound_box k = obj.bound_box 0) → get_object_radius obj = 0) ∧
    (∀ obj : BlenderObject, obj.objType ≠ "MESH" → get_object_radius obj = 1 / 2) := by
  constructor
  · intro obj hmesh hconst
    unfold get_object_radius get_object_bounds
    rw [if_pos hmesh]
    unfold max8 min8
    simp only [hconst 1, hconst 2, hconst 3, hconst 4, hconst 5, hconst 6, hconst 7]
    norm_num [Vec3.sub_x, Vec3.sub_y, Vec3.sub_z]
  · intro obj hne
    unfold get_object_radius get_object_bounds
    rw [if_neg hne]
    norm_num

/-- C7 witness: the amended claim at the two concrete objects. -/
theorem get_object_radius_degenerate_witness :
    get_object_radius degenerateMesh = 0 ∧ get_object_radius nonMeshObject = 1 / 2 :=
  ⟨get_object_radius_degenerate.1 degenerateMesh rfl (fun _ => rfl),
   get_object_radius_degenerate.2 nonMeshObject (by decide)⟩

/-- C1: on every successful run with positive domain and minimum distance,
the points returned by `generate_poisson_disk_samples` are pairwise at least
`min_distance` apart — the 5×5 neighborhood scan of `is_valid_point`, with
`cell_size = min_distance / sqrt 2`, reaches every stored point within
`min_distance` of a candidate. -/
theorem poisson_pairwise_spacing {width height min_distance : ℝ}
    {max_attempts : ℕ} {stream : RandStream} {fuel : ℕ} {pts : List Vec3}
    (hw : 0 < width) (hh : 0 < height) (hmd : 0 < min_distance)
    (h : generate_poisson_disk_samples width height min_distance max_attempts
      stream fuel = some pts) :
    pts.Pairwise (fun p q => min_distance ≤ (p - q).length) := by
  rw [gen_eq_some h]
  exact (inv_stepsTo (C := ⟨width, height, min_distance, max_attempts, stream⟩)
    ⟨hw, hh, hmd⟩ fuel).pair

/-- C1 witness: a one-iteration run (unit domain, `max_attempts = 0`) returns
the singleton seed list, which is pairwise spaced. -/
theorem poisson_pairwise_spacing_witness :
    generate_poisson_disk_samples 1 1 1 0 zeroStream 1 =
      some [first_point 1 1 zeroStream] ∧
    ([first_point 1 1 zeroStream]).Pairwise
      (fun p q => (1 : ℝ) ≤ (p - q).length) := by
  have hgen : generate_poisson_disk_samples 1 1 1 0 zeroStream 1 =
      some [first_point 1 1 zeroStream] := rfl
  exact ⟨hgen, poisson_pairwise_spacing (by norm_num) (by norm_num) (by norm_num) hgen⟩

/-- C2: on every successful run with positive domain and minimum distance,
every returned point — the seed included — lies in the half-open box
`[0, width) × [0, height)`.  (Under the exact-arithmetic model the seed draw
`uniform(0, b)` with `random() ∈ [0, 1)` lies in `[0, b)`; the documented
possibility of `uniform` returning its upper endpoint is a float-rounding
artifact outside this model.) -/
theorem poisson_points_in_bounds {width height min_distance : ℝ}
    {max_attempts : ℕ} {stream : RandStream} {fuel : ℕ} {pts : List Vec3}
    (hw : 0 < width) (hh : 0 < height) (hmd : 0 < min_distance)
    (h : generate_poisson_disk_samples width height min_distance max_attempts
      stream fuel = some pts) :
    ∀ p ∈ pts, 0 ≤ p.x ∧ p.x < width ∧ 0 ≤ p.y ∧ p.y < height := by
  intro p hp
  rw [gen_eq_some h] at hp
  obtain ⟨h1, h2, h3, h4, _⟩ := (inv_stepsTo ⟨hw, hh, hmd⟩ fuel).bounds p hp
  exact ⟨h1, h2, h3, h4⟩

/-- C2 witness: the seed of the one-iteration unit run is inside the box. -/
theorem poisson_points_in_bounds_witness :
    generate_poisson_disk_samples 1 1 1 0 zeroStream 1 =
      some [first_point 1 1 zeroStream] ∧
    (0 ≤ (first_point 1 1 zeroStream).x ∧ (first_point 1 1 zeroStream).x < 1 ∧
     0 ≤ (first_point 1 1 zeroStream).y ∧ (first_point 1 1 zeroStream).y < 1) := by
  have hgen : generate_poisson_disk_samples 1 1 1 0 zeroStream 1 =
      some [first_point 1 1 zeroStream] := rfl
  exact ⟨hgen, poisson_points_in_bounds (by norm_num) (by norm_num) (by norm_num) hgen
    (first_point 1 1 zeroStream) (List.mem_singleton.mpr rfl)⟩

/-- C8: with positive domain and minimum distance the while loop terminates:
each iteration either drops its picked point from the active list or fills a
previously empty cell of the finite
`(int(width/cell_size)+1) * (int(height/cell_size)+1)` grid, so any fuel of at
least `1 + 2 * grid_width * grid_height` iterations completes the run for
every random stream and every `max_attempts`. -/
theorem poisson_terminates {width height min_distance : ℝ} (max_attempts : ℕ)
    (stream : RandStream) {fuel : ℕ}
    (hw : 0 < width) (hh : 0 < height) (hmd : 0 < min_distance)
    (hfuel : 1 + 2 * ((grid_width width min_distance).toNat *
      (grid_height height min_distance).toNat) ≤ fuel) :
    (generate_poisson_disk_samples width height min_distance max_attempts
      stream fuel).isSome = true := by
  have hm : loopMeasure ⟨width, height, min_distance, max_attempts, stream⟩
      (init ⟨width, height, min_distance, max_attempts, stream⟩) ≤ fuel := by
    have h2 : emptyCount ⟨width, height, min_distance, max_attempts, stream⟩
        (init ⟨width, height, min_distance, max_attempts, stream⟩) ≤
        (cellsFinset ⟨width, height, min_distance, max_attempts, stream⟩).card :=
      Finset.card_filter_le _ _
    have h3 := cellsFinset_card ⟨width, height, min_distance, max_attempts, stream⟩
    simp only at h3
    unfold loopMeasure
    have h1 : (init (⟨width, height, min_distance, max_attempts, stream⟩ : Ctx)
      ).active.length = 1 := rfl
    omega
  have hempty := active_empty_of_fuel
    (C := ⟨width, height, min_distance, max_attempts, stream⟩) ⟨hw, hh, hmd⟩ hm
  simp only [generate_poisson_disk_samples]
  rw [hempty]
  rfl

/-- C8 witness: for the unit configuration the grid is 2 × 2, so fuel 9
suffices; the run indeed completes. -/
theorem poisson_terminates_witness :
    (generate_poisson_disk_samples 1 1 1 0 zeroStream 9).isSome = true := by
  have hsq2 : pyInt (Real.sqrt 2) = 1 := by
    unfold pyInt
    rw [if_pos (Real.sqrt_nonneg 2)]
    rw [Int.floor_eq_iff]
    constructor
    · rw [show ((1 : ℤ) : ℝ) = Real.sqrt 1 by simp]
      exact Real.sqrt_le_sqrt (by norm_num)
    · rw [show ((1 : ℤ) : ℝ) + 1 = Real.sqrt 4 by
        rw [show (4 : ℝ) = 2 ^ 2 by norm_num, Real.sqrt_sq (by norm_num)]
        norm_num]
      exact Real.sqrt_lt_sqrt (by norm_num) (by norm_num)
  have harg : (1 : ℝ) / cell_size 1 = Real.sqrt 2 := by
    unfold cell_size
    rw [one_div_one_div]
  have hgw : grid_width 1 1 = 2 := by
    unfold grid_width
    rw [harg, hsq2]
    decide
  have hgh : grid_height 1 1 = 2 := by
    unfold grid_height
    rw [harg, hsq2]
    decide

  exact poisson_terminates 0 zeroStream (by norm_num) (by norm_num) (by norm_num)
    (by rw [hgw, hgh]; decide)

/-- C9: throughout every execution, a grid cell is occupied only by a point
whose cell coordinates `(int(p.x/cell_size), int(p.y/cell_size))` equal that
cell, and an occupied cell is never overwritten (its occupant persists to the
next iteration) — with `cell_size = min_distance / sqrt 2`, an occupant of a
candidate's own cell would lie within `min_distance`, so the candidate would
have been rejected. -/
theorem poisson_grid_cell_invariant {width height min_distance : ℝ}
    {max_attempts : ℕ} {stream : RandStream}
    (hw : 0 < width) (hh : 0 < height) (hmd : 0 < min_distance) :
    ∀ n,
      (∀ i j q,
        (stepsTo ⟨width, height, min_distance, max_attempts, stream⟩ n).grid i j
            = some q →
          cellOf (cell_size min_distance) q = (i, j)) ∧
      (∀ i j q,
        (stepsTo ⟨width, height, min_distance, max_attempts, stream⟩ n).grid i j
            = some q →
          (stepsTo ⟨width, height, min_distance, max_attempts, stream⟩ (n + 1)).grid
            i j = some q) := by
  intro n
  constructor
  · exact fun i j q hq => (inv_stepsTo ⟨hw, hh, hmd⟩ n).grid_cell i j q hq
  · intro i j q hq
    have hs := inv_stepsTo (C := ⟨width, height, min_distance, max_attempts, stream⟩)
      ⟨hw, hh, hmd⟩ n
    show (match (stepsTo ⟨width, height, min_distance, max_attempts, stream⟩ n).active
        with
      | [] => stepsTo ⟨width, height, min_distance, max_attempts, stream⟩ n
      | _ :: _ => step ⟨width, height, min_distance, max_attempts, stream⟩
          (stepsTo ⟨width, height, min_distance, max_attempts, stream⟩ n)).grid i j
      = some q
    cases hact : (stepsTo ⟨width, height, min_distance, max_attempts, stream⟩ n).active
      with
    | nil => exact hq
    | cons a as =>
        simp only
        cases hres : attemptLoop ⟨width, height, min_distance, max_attempts, stream⟩
            (stepsTo ⟨width, height, min_distance, max_attempts, stream⟩ n).grid
            ((stepsTo ⟨width, height, min_distance, max_attempts, stream⟩ n).active.getD
              (stream.nat (stepsTo ⟨width, height, min_distance, max_attempts,
                stream⟩ n).kn %
               (stepsTo ⟨width, height, min_distance, max_attempts, stream⟩
                 n).active.length) default)
            max_attempts
            (stepsTo ⟨width, height, min_distance, max_attempts, stream⟩ n).kr with
        | mk onp kr' =>
          cases onp with
          | none => rw [step_reject hres]; exact hq
          | some np =>
              obtain ⟨hnpb, hnpv⟩ := attemptLoop_some hres
              have hempty := valid_cell_empty hmd hnpb hs.grid_cell
                (fun i' j' q' hq' => hs.bounds q' (hs.grid_mem i' j' q' hq')) hnpv
              rw [step_accept hres]
              simp only [gridStore]
              rw [if_neg]
              · exact hq
              · intro hc
                rw [hc.1, hc.2] at hq
                rw [hq] at hempty
                cases hempty

/-- C9 witness: after set-up of the unit run the seed occupies cell `(0,0)`,
and the invariant confirms its cell coordinates are `(0,0)`. -/
theorem poisson_grid_cell_invariant_witness :
    (stepsTo ⟨1, 1, 1, 0, zeroStream⟩ 0).grid 0 0 =
      some (first_point 1 1 zeroStream) ∧
    cellOf (cell_size 1) (first_point 1 1 zeroStream) = (0, 0) := by
  have hfp : first_point 1 1 zeroStream = ⟨0, 0, 0⟩ := by
    simp [first_point, uniform, zeroStream]
  have hcell : cellOf (cell_size 1) (first_point 1 1 zeroStream) = (0, 0) := by
    rw [hfp]
    unfold cellOf pyInt
    norm_num
  have hgrid : (stepsTo ⟨1, 1, 1, 0, zeroStream⟩ 0).grid 0 0 =
      some (first_point 1 1 zeroStream) := by
    show (init ⟨1, 1, 1, 0, zeroStream⟩).grid 0 0 = _
    simp only [init, gridStore]
    rw [if_pos]
    rw [hcell]
    exact ⟨rfl, rfl⟩
  exact ⟨hgrid,
    (poisson_grid_cell_invariant (by norm_num) (by norm_num) (by norm_num) 0).1
      0 0 _ hgrid⟩

/-- C10: on every successful run with positive parameters the returned list is
non-empty — its head is the seed point drawn before the main loop, whatever
`max_attempts` is (including 0). -/
theorem poisson_output_nonempty {width height min_distance : ℝ}
    {max_attempts : ℕ} {stream : RandStream} {fuel : ℕ} {pts : List Vec3}
    (_hw : 0 < width) (_hh : 0 < height) (_hmd : 0 < min_distance)
    (h : generate_poisson_disk_samples width height min_distance max_attempts
      stream fuel = some pts) :
    pts.head? = some (first_point width height stream) := by
  rw [gen_eq_some h]
  exact stepsTo_points_head _ fuel

/-- C10 witness: the unit run with `max_attempts = 0` returns exactly the
seed. -/
theorem poisson_output_nonempty_witness :
    generate_poisson_disk_samples 1 1 1 0 zeroStream 1 =
      some [first_point 1 1 zeroStream] ∧
    ([first_point 1 1 zeroStream]).head? = some (first_point 1 1 zeroStream) := by
  have hgen : generate_poisson_disk_samples 1 1 1 0 zeroStream 1 =
      some [first_point 1 1 zeroStream] := rfl
  exact ⟨hgen, poisson_output_nonempty (by norm_num) (by norm_num) (by norm_num) hgen⟩

end TerrainGen
